import Mathlib

/-!
Shallow embedding of `src/main.py` (SimpleConfigTool).

The embedded parts are the ones the specification is about: the multiplicity
parser and the aggregation-processing loop of `ModelParser.parse_xml`,
`ModelParser.get_root_class`, `ConfigXMLGenerator.generate`,
`MetaJSONGenerator.generate`, `DeltaJSONGenerator.generate` (the diff) and
`ResPatchedConfigGenerator.generate` (the patch application).  File input and
output (the `save` methods and `main`) are external plumbing and are not
embedded.

Python dictionaries are modelled as insertion-ordered association lists with
string keys; well-formed dictionaries have pairwise distinct keys
(`PyDict.NodupKeys`), and dictionary equality (`==` in Python) is extensional
equality of the key-to-value view (`PyDict.get?`).  Python exceptions are
modelled with `Except PyError`; `KeyError`, `ValueError` and `StopIteration`
are the exceptions the embedded code paths can raise.  JSON values carried by
the configuration dictionaries form an arbitrary type `V` with decidable
structural equality, matching the structural `!=` on parsed JSON in Python.
-/

namespace SimpleConfigTool

/-- Errors raised by the embedded Python code paths: `keyError k` is the
generic mapping-lookup failure raised by `d[k]` on a missing key `k`,
`valueError` is the unpacking failure raised by `a, b = xs` when `xs` does
not have exactly two elements, and `stopIteration` is raised by `next` on an
exhausted generator. -/
inductive PyError where
  | keyError (k : String)
  | valueError
  | stopIteration
deriving DecidableEq

/-- A Python `dict` with string keys: an insertion-ordered association list
with pairwise distinct keys (`PyDict.NodupKeys`). -/
abbrev PyDict (V : Type) : Type := List (String × V)

namespace PyDict

variable {V : Type}

/-- Reading `d[k]` as an `Option`: the value of the first entry keyed `k`. -/
def get? : PyDict V → String → Option V
  | [], _ => none
  | p :: m, k => if p.1 = k then some p.2 else get? m k

/-- The membership test `k in d`. -/
def hasKey (m : PyDict V) (k : String) : Bool :=
  (get? m k).isSome

/-- Assignment `d[k] = v`: overwrites the entry in place when the key exists
(a Python dict keeps the original insertion position of an overwritten key)
and appends a new entry otherwise. -/
def set : PyDict V → String → V → PyDict V
  | [], k, v => [(k, v)]
  | p :: m, k, v => if p.1 = k then (k, v) :: m else p :: set m k v

/-- Removal `d.pop(k, None)`: drops the entry keyed `k`, a no-op when the key
is absent. -/
def pop : PyDict V → String → PyDict V
  | [], _ => []
  | p :: m, k => if p.1 = k then pop m k else p :: pop m k

/-- Key distinctness, the invariant every Python dict satisfies. -/
def NodupKeys (m : PyDict V) : Prop :=
  (m.map (fun p => p.1)).Nodup

instance (m : PyDict V) : Decidable (NodupKeys m) := by
  unfold NodupKeys
  infer_instance

end PyDict

/-- Character-level embedding of the Python expression `s.split("..")`: cut
at the non-overlapping occurrences of two consecutive dots, scanning left to
right.  The accumulator holds the current part in reverse. -/
def splitDotsAux : List Char → List Char → List (List Char)
  | [], acc => [acc.reverse]
  | '.' :: '.' :: rest, acc => acc.reverse :: splitDotsAux rest []
  | c :: rest, acc => splitDotsAux rest (c :: acc)

/-- The Python expression `s.split("..")`. -/
def splitOnDotDot (s : String) : List String :=
  (splitDotsAux s.data []).map (fun cs => String.mk cs)

/-- Lines 79-85 of `ModelParser.parse_xml`, the multiplicity parser.  The
test `".." in multiplicity` holds exactly when `multiplicity.split("..")`
yields more than one part, and the two-element unpacking of the split raises
`ValueError` unless the split yields exactly two parts. -/
def parseMultiplicity (multiplicity : String) : Except PyError (String × String) :=
  if (splitOnDotDot multiplicity).length ≠ 1 then
    match splitOnDotDot multiplicity with
    | [min_val, max_val] => .ok (min_val, max_val)
    | _ => .error .valueError
  else
    .ok (multiplicity, multiplicity)

/-- An attribute of a class: the `name` and `type` strings from the XML. -/
structure Attribute where
  name : String
  type : String
deriving DecidableEq

/-- The `ClassInfo` record of `main.py`.  Python's `children` list holds
object references into the class dictionary; since classes are identified by
their unique name (the dictionary key, always equal to the stored object's
`name`), a child reference is embedded as the child's name and resolved
through the class dictionary when read. -/
structure ClassInfo where
  name : String
  is_root : Bool
  documentation : String
  attributes : List Attribute
  children : List String
  min : String
  max : String
deriving DecidableEq

/-- One parsed `<Class>` element: the data `parse_xml` reads before it
constructs a `ClassInfo` (lines 46-58). -/
structure ClassDecl where
  name : String
  isRoot : Bool
  documentation : String
  attributes : List Attribute
deriving DecidableEq

/-- One parsed `<Aggregation>` element (lines 61-71). -/
structure Aggregation where
  source : String
  target : String
  sourceMultiplicity : String
  targetMultiplicity : String
deriving DecidableEq

namespace ModelParser

/-- Dictionary indexing `self.classes[name]`, raising `KeyError` when the
name is absent. -/
def classItem (classes : PyDict ClassInfo) (name : String) :
    Except PyError ClassInfo :=
  match PyDict.get? classes name with
  | some c => .ok c
  | none => .error (.keyError name)

/-- One iteration of the aggregation loop of `parse_xml` (lines 73-85), in
statement order: look up the source (`KeyError`), look up the target
(`KeyError`), append the source to the target's children, parse the source
multiplicity (`ValueError`), overwrite the source's `min`/`max`.  The final
source lookup re-reads the dictionary because in Python the source and
target variables alias one object when the edge is a self-loop. -/
def processAggregation (classes : PyDict ClassInfo) (agg : Aggregation) :
    Except PyError (PyDict ClassInfo) := do
  let _source_class ← classItem classes agg.source
  let target_class ← classItem classes agg.target
  let classes1 := PyDict.set classes agg.target
    { target_class with children := target_class.children ++ [agg.source] }
  let mm ← parseMultiplicity agg.sourceMultiplicity
  let source_class ← classItem classes1 agg.source
  pure (PyDict.set classes1 agg.source
    { source_class with min := mm.1, max := mm.2 })

/-- Registration of the parsed class elements (lines 46-58): a repeated name
silently overwrites the earlier entry. -/
def registerClasses (decls : List ClassDecl) : PyDict ClassInfo :=
  decls.foldl
    (fun classes d => PyDict.set classes d.name
      { name := d.name, is_root := d.isRoot, documentation := d.documentation,
        attributes := d.attributes, children := [], min := "0", max := "0" })
    []

/-- The whole model-building pass of `parse_xml`: register every class, then
process the aggregations in declaration order; the first raised error aborts
the run. -/
def buildModel (decls : List ClassDecl) (aggs : List Aggregation) :
    Except PyError (PyDict ClassInfo) :=
  aggs.foldlM processAggregation (registerClasses decls)

/-- Line 88, `get_root_class`: the first class flagged root in dictionary
order; `next` on an exhausted generator raises `StopIteration`. -/
def get_root_class (classes : PyDict ClassInfo) : Except PyError ClassInfo :=
  match classes.find? (fun p => p.2.is_root) with
  | some p => .ok p.2
  | none => .error .stopIteration

end ModelParser

/-- An XML element tree: tag, optional text, child elements. -/
inductive XTree where
  | node (tag : String) (text : Option String) (children : List XTree)

namespace ConfigXMLGenerator

/-- Fuel-indexed embedding of the recursive `ConfigXMLGenerator.generate`
(lines 93-107): the element is tagged with the class name, holds one
text-carrying subelement per attribute (the text is the attribute's declared
type), then one recursively generated subelement per child, in order.  The
result is `none` when the recursion does not bottom out within `fuel`
nesting levels; the Python original has no such bound and recurses without
limit on a cyclic containment graph. -/
def generate (fuel : Nat) (classes : PyDict ClassInfo) (class_info : ClassInfo) :
    Option XTree :=
  match fuel with
  | 0 => none
  | fuel + 1 =>
    let attrElems := class_info.attributes.map
      (fun attr => XTree.node attr.name (some attr.type) [])
    match class_info.children.mapM
        (fun childName =>
          match PyDict.get? classes childName with
          | some child => generate fuel classes child
          | none => none) with
    | some childElems =>
      some (XTree.node class_info.name none (attrElems ++ childElems))
    | none => none

end ConfigXMLGenerator

/-- One `parameters` entry of a meta record: an attribute's name and type, or
a child's name with type `"class"`. -/
structure MetaParameter where
  name : String
  type : String
deriving DecidableEq

/-- One record of `meta.json` (lines 129-143); `className` renders the
record's `class` field, which is a reserved word in Lean. -/
structure MetaEntry where
  className : String
  documentation : String
  isRoot : Bool
  max : String
  min : String
  parameters : List MetaParameter
deriving DecidableEq

namespace MetaJSONGenerator

/-- Lines 126-144, `MetaJSONGenerator.generate`: one record per entry of the
class dictionary, in dictionary order; `parameters` lists the attributes in
declaration order and then the children in containment order.  The
definition folds over the flat dictionary once and never recurses into
`children`, so it is total for every model, cyclic containment included. -/
def generate (classes : PyDict ClassInfo) : List MetaEntry :=
  classes.map (fun p =>
    { className := p.2.name,
      documentation := p.2.documentation,
      isRoot := p.2.is_root,
      max := p.2.max,
      min := p.2.min,
      parameters :=
        p.2.attributes.map (fun attr => { name := attr.name, type := attr.type })
        ++ p.2.children.map (fun child => { name := child, type := "class" }) })

end MetaJSONGenerator

/-- One entry of the `additions` bucket of a delta. -/
structure Addition (V : Type) where
  key : String
  value : V
deriving DecidableEq

/-- One entry of the `updates` bucket of a delta. -/
structure Update (V : Type) where
  key : String
  «from» : V
  «to» : V
deriving DecidableEq

/-- The three-bucket delta document. -/
structure Delta (V : Type) where
  additions : List (Addition V)
  deletions : List String
  updates : List (Update V)
deriving DecidableEq

namespace DeltaJSONGenerator

/-- Lines 155-176, `DeltaJSONGenerator.generate`, the diff.  Python iterates
over key sets (`patched_keys - config_keys`, `config_keys - patched_keys`,
`config_keys & patched_keys`) whose order is unspecified; the embedding
iterates the corresponding dictionary in its own order, which yields the
same buckets as sets. -/
def generate {V : Type} [DecidableEq V] (config patched_config : PyDict V) :
    Delta V :=
  { additions :=
      (patched_config.filter (fun p => !(PyDict.hasKey config p.1))).map
        (fun p => { key := p.1, value := p.2 }),
    deletions :=
      (config.filter (fun p => !(PyDict.hasKey patched_config p.1))).map
        (fun p => p.1),
    updates :=
      config.filterMap (fun p =>
        match PyDict.get? patched_config p.1 with
        | some v =>
          if p.2 = v then none
          else some { key := p.1, «from» := p.2, «to» := v }
        | none => none) }

end DeltaJSONGenerator

namespace ResPatchedConfigGenerator

/-- Lines 187-198, `ResPatchedConfigGenerator.generate`, the patch
application: start from a copy of `config` (the embedding is pure, so the
input dictionary is trivially left intact), pop every deleted key, assign
every update's `to` value, then assign every addition's value, in exactly
that order. -/
def generate {V : Type} (config : PyDict V) (delta : Delta V) : PyDict V :=
  let result := config
  let result := delta.deletions.foldl (fun r key => PyDict.pop r key) result
  let result := delta.updates.foldl (fun r u => PyDict.set r u.key u.«to») result
  delta.additions.foldl (fun r a => PyDict.set r a.key a.value) result

end ResPatchedConfigGenerator

/-- A checkable witness that the containment graph restricted to the name
set `D` is acyclic: `rank` strictly decreases from parent to child, every
child of a `D` member stays in `D`, and every such child resolves in the
class dictionary.  A finite graph admits such a rank exactly when it is
acyclic. -/
def rankedDomain (classes : PyDict ClassInfo) (rank : String → Nat)
    (D : List String) : Bool :=
  D.all (fun d =>
    match PyDict.get? classes d with
    | some c => c.children.all (fun ch =>
        decide (ch ∈ D) && decide (rank ch < rank d) &&
          (PyDict.get? classes ch).isSome)
    | none => true)

/-- A checkable witness that every name in `cyc` lies on a containment
cycle: each one resolves to a class that has at least one child back in
`cyc`. -/
def cyclicDomain (classes : PyDict ClassInfo) (cyc : List String) : Bool :=
  cyc.all (fun n =>
    match PyDict.get? classes n with
    | some c => c.children.any (fun ch => decide (ch ∈ cyc))
    | none => false)

namespace PyDict

variable {V : Type}

theorem get?_set_self (m : PyDict V) (k : String) (v : V) :
    get? (set m k v) k = some v := by
  induction m with
  | nil => simp [set, get?]
  | cons p rest ih =>
    by_cases hp : p.1 = k <;> simp [set, get?, hp, ih]

theorem get?_set_ne (m : PyDict V) {k q : String} (v : V) (h : q ≠ k) :
    get? (set m k v) q = get? m q := by
  induction m with
  | nil => simp [set, get?, Ne.symm h]
  | cons p rest ih =>
    by_cases hp : p.1 = k
    · simp [set, get?, hp, Ne.symm h, ih]
    · simp [set, get?, hp, ih]

theorem get?_pop (m : PyDict V) (k q : String) :
    get? (pop m k) q = if q = k then none else get? m q := by
  induction m with
  | nil => simp [pop, get?]
  | cons p rest ih =>
    by_cases hp : p.1 = k
    · by_cases hq : q = k
      · subst hq
        simp [pop, get?, hp] at ih ⊢
        exact ih
      · have h2 : p.1 ≠ q := fun hh => hq (hh ▸ hp ▸ rfl)
        simp [pop, get?, hp, hq, h2, ih, Ne.symm hq]
    · by_cases hpq : p.1 = q
      · have h2 : q ≠ k := fun hh => hp (hpq ▸ hh ▸ rfl)
        simp [pop, get?, hp, hpq, h2]
      · simp [pop, get?, hp, hpq, ih]

theorem get?_mem {m : PyDict V} {k : String} {v : V}
    (h : get? m k = some v) : (k, v) ∈ m := by
  induction m with
  | nil => cases h
  | cons p rest ih =>
    by_cases hp : p.1 = k
    · simp [get?, hp] at h
      exact List.mem_cons.mpr (Or.inl (by rw [← h, ← hp]))
    · simp [get?, hp] at h
      exact List.mem_cons.mpr (Or.inr (ih h))

theorem mem_get?_of_nodup {m : PyDict V} (hm : NodupKeys m) {k : String}
    {v : V} (h : (k, v) ∈ m) : get? m k = some v := by
  induction m with
  | nil => cases h
  | cons p rest ih =>
    unfold NodupKeys at hm
    rw [List.map_cons, List.nodup_cons] at hm
    rcases List.mem_cons.mp h with rfl | hmem
    · simp [get?]
    · have hp : p.1 ≠ k := fun hh =>
        hm.1 (hh ▸ List.mem_map.mpr ⟨(k, v), hmem, rfl⟩)
      simp [get?, hp, ih hm.2 hmem]

theorem get?_eq_none_iff_forall (m : PyDict V) (k : String) :
    get? m k = none ↔ ∀ v : V, (k, v) ∉ m := by
  constructor
  · intro h v hmem
    induction m with
    | nil => cases hmem
    | cons p rest ih =>
      by_cases hp : p.1 = k
      · simp [get?, hp] at h
      · simp [get?, hp] at h
        rcases List.mem_cons.mp hmem with heq | hmem2
        · exact hp (by rw [← heq])
        · exact ih h hmem2
  · intro h
    cases hg : get? m k with
    | none => rfl
    | some v => exact absurd (get?_mem hg) (h v)

theorem foldl_pop_get? (ds : List String) (m : PyDict V) (k : String) :
    get? (ds.foldl (fun r d => pop r d) m) k =
      if k ∈ ds then none else get? m k := by
  induction ds generalizing m with
  | nil => simp
  | cons d ds ih =>
    rw [List.foldl_cons, ih]
    by_cases hk : k ∈ ds
    · simp [hk]
    · by_cases hd : k = d
      · simp [hk, hd, get?_pop]
      · simp [hk, hd, get?_pop, List.mem_cons]

theorem foldl_set_get? {α : Type} (key : α → String) (val : α → V)
    (l : List α) (m : PyDict V) (k : String) :
    get? (l.foldl (fun r x => set r (key x) (val x)) m) k =
      match l.reverse.find? (fun x => key x == k) with
      | some x => some (val x)
      | none => get? m k := by
  induction l generalizing m with
  | nil => simp
  | cons x l ih =>
    rw [List.foldl_cons, ih, List.reverse_cons, List.find?_append]
    cases hf : l.reverse.find? (fun x => key x == k) with
    | some y => simp
    | none =>
      by_cases hx : key x = k
      · simp [List.find?, hx, get?_set_self, hx ▸ get?_set_self m (key x) (val x)]
      · have : (key x == k) = false := by simp [hx]
        simp [List.find?, this, get?_set_ne m (val x) (Ne.symm hx)]

theorem find?_key_of_nodup {α : Type} (key : α → String) {l : List α}
    (hl : (l.map key).Nodup) {x : α} (hx : x ∈ l) {k : String}
    (hk : key x = k) : l.find? (fun y => key y == k) = some x := by
  induction l with
  | nil => cases hx
  | cons y l ih =>
    rw [List.map_cons, List.nodup_cons] at hl
    rcases List.mem_cons.mp hx with rfl | hmem
    · simp [List.find?_cons, hk]
    · have hy : key y ≠ k := by
        intro hh
        apply hl.1
        rw [hh, ← hk]
        exact List.mem_map.mpr ⟨x, hmem, rfl⟩
      have : (key y == k) = false := by simp [hy]
      rw [List.find?_cons, this]
      exact ih hl.2 hmem

theorem find?_key_reverse_of_nodup {α : Type} (key : α → String) {l : List α}
    (hl : (l.map key).Nodup) {x : α} (hx : x ∈ l) {k : String}
    (hk : key x = k) : l.reverse.find? (fun y => key y == k) = some x := by
  apply find?_key_of_nodup key _ (List.mem_reverse.mpr hx) hk
  rw [List.map_reverse]
  exact List.nodup_reverse.mpr hl

end PyDict

theorem hasKey_false_iff {V : Type} {m : PyDict V} {k : String} :
    PyDict.hasKey m k = false ↔ PyDict.get? m k = none := by
  unfold PyDict.hasKey
  cases h : PyDict.get? m k <;> simp [h]

theorem hasKey_of_mem {V : Type} {m : PyDict V} {p : String × V} (hp : p ∈ m) :
    PyDict.hasKey m p.1 = true := by
  unfold PyDict.hasKey
  cases hg : PyDict.get? m p.1 with
  | some v => rfl
  | none =>
    exact absurd (show (p.1, p.2) ∈ m by simpa using hp)
      ((PyDict.get?_eq_none_iff_forall m p.1).mp hg p.2)

/-- Pointwise semantics of the patch application: the latest addition for a
key wins over the latest update for it, which wins over a deletion, which
wins over the base dictionary. -/
theorem applyDelta_get? {V : Type} (config : PyDict V) (delta : Delta V)
    (k : String) :
    PyDict.get? (ResPatchedConfigGenerator.generate config delta) k =
      match delta.additions.reverse.find? (fun a => a.key == k) with
      | some a => some a.value
      | none =>
        match delta.updates.reverse.find? (fun u => u.key == k) with
        | some u => some u.«to»
        | none =>
          if k ∈ delta.deletions then none else PyDict.get? config k := by
  unfold ResPatchedConfigGenerator.generate
  rw [PyDict.foldl_set_get? (fun a : Addition V => a.key)
      (fun a : Addition V => a.value)]
  rw [PyDict.foldl_set_get? (fun u : Update V => u.key)
      (fun u : Update V => u.«to»)]
  rw [PyDict.foldl_pop_get?]
  cases List.find? (fun a => a.key == k) delta.additions.reverse with
  | some a => rfl
  | none =>
    cases List.find? (fun u => u.key == k) delta.updates.reverse with
    | some u => rfl
    | none => rfl

theorem mem_additions_iff {V : Type} [DecidableEq V] {base patched : PyDict V}
    {a : Addition V} :
    a ∈ (DeltaJSONGenerator.generate base patched).additions ↔
      ∃ q ∈ patched, PyDict.hasKey base q.1 = false ∧ a = ⟨q.1, q.2⟩ := by
  unfold DeltaJSONGenerator.generate
  simp only [List.mem_map, List.mem_filter]
  constructor
  · rintro ⟨q, ⟨hq, hkey⟩, rfl⟩
    exact ⟨q, hq, by simpa using hkey, rfl⟩
  · rintro ⟨q, hq, hkey, rfl⟩
    exact ⟨q, ⟨hq, by simpa using hkey⟩, rfl⟩

theorem mem_deletions_iff {V : Type} [DecidableEq V] {base patched : PyDict V}
    {k : String} :
    k ∈ (DeltaJSONGenerator.generate base patched).deletions ↔
      ∃ q ∈ base, PyDict.hasKey patched q.1 = false ∧ q.1 = k := by
  unfold DeltaJSONGenerator.generate
  simp only [List.mem_map, List.mem_filter]
  constructor
  · rintro ⟨q, ⟨hq, hkey⟩, rfl⟩
    exact ⟨q, hq, by simpa using hkey, rfl⟩
  · rintro ⟨q, hq, hkey, rfl⟩
    exact ⟨q, ⟨hq, by simpa using hkey⟩, rfl⟩

theorem mem_updates_iff {V : Type} [DecidableEq V] {base patched : PyDict V}
    {u : Update V} :
    u ∈ (DeltaJSONGenerator.generate base patched).updates ↔
      ∃ q ∈ base, ∃ v, PyDict.get? patched q.1 = some v ∧ q.2 ≠ v ∧
        u = ⟨q.1, q.2, v⟩ := by
  unfold DeltaJSONGenerator.generate
  simp only [List.mem_filterMap]
  constructor
  · rintro ⟨q, hq, hfq⟩
    cases hpq : PyDict.get? patched q.1 with
    | none => rw [hpq] at hfq; cases hfq
    | some v =>
      rw [hpq] at hfq
      by_cases hv : q.2 = v
      · simp [hv] at hfq
      · simp [hv] at hfq
        exact ⟨q, hq, v, hpq, hv, hfq.symm⟩
  · rintro ⟨q, hq, v, hpq, hv, rfl⟩
    refine ⟨q, hq, ?_⟩
    rw [hpq]
    simp [hv]

/-- Every update entry's `to` field is the patched dictionary's value at the
entry's key. -/
theorem updates_to_eq {V : Type} [DecidableEq V] {base patched : PyDict V}
    {u : Update V}
    (h : u ∈ (DeltaJSONGenerator.generate base patched).updates) :
    PyDict.get? patched u.key = some u.«to» := by
  obtain ⟨q, _, v, hpq, _, rfl⟩ := mem_updates_iff.mp h
  exact hpq

theorem additions_keys_nodup {V : Type} [DecidableEq V]
    {base patched : PyDict V} (hp : PyDict.NodupKeys patched) :
    (((DeltaJSONGenerator.generate base patched).additions).map
      (fun a => a.key)).Nodup := by
  unfold DeltaJSONGenerator.generate
  rw [List.map_map]
  have hsub : (List.map (fun q : String × V => q.1)
      (patched.filter (fun p => !(PyDict.hasKey base p.1)))).Sublist
      (patched.map (fun q => q.1)) :=
    List.Sublist.map _ (List.filter_sublist patched)
  exact List.Nodup.sublist hsub hp

theorem mapM_isSome_of_forall {α β : Type} {f : α → Option β} {l : List α}
    (h : ∀ a ∈ l, (f a).isSome = true) : (l.mapM f).isSome = true := by
  induction l with
  | nil => rfl
  | cons a l ih =>
    rw [List.mapM_cons]
    have ha := h a (List.mem_cons_self a l)
    cases hfa : f a with
    | none => rw [hfa] at ha; cases ha
    | some b =>
      have hl := ih (fun x hx => h x (List.mem_cons_of_mem a hx))
      cases hml : l.mapM f with
      | none => rw [hml] at hl; cases hl
      | some bs => simp [hfa, hml]

theorem mapM_eq_none_of_mem {α β : Type} {f : α → Option β} {l : List α}
    {a : α} (ha : a ∈ l) (hfa : f a = none) : l.mapM f = none := by
  induction l with
  | nil => cases ha
  | cons b l ih =>
    rw [List.mapM_cons]
    rcases List.mem_cons.mp ha with rfl | hmem
    · rw [hfa]
      rfl
    · cases hfb : f b with
      | none => rfl
      | some y =>
        rw [ih hmem]
        rfl

/-- Helper: the value `processAggregation` computes when every step
succeeds. -/
theorem processAggregation_eq (classes : PyDict ClassInfo) (agg : Aggregation)
    (src tgt : ClassInfo) (mm : String × String) (src1 : ClassInfo)
    (hs : PyDict.get? classes agg.source = some src)
    (ht : PyDict.get? classes agg.target = some tgt)
    (hparse : parseMultiplicity agg.sourceMultiplicity = .ok mm)
    (hs1 : PyDict.get? (PyDict.set classes agg.target
      { tgt with children := tgt.children ++ [agg.source] }) agg.source
      = some src1) :
    ModelParser.processAggregation classes agg = .ok
      (PyDict.set (PyDict.set classes agg.target
        { tgt with children := tgt.children ++ [agg.source] }) agg.source
        { src1 with min := mm.1, max := mm.2 }) := by
  unfold ModelParser.processAggregation ModelParser.classItem
  rw [hs, ht, hparse]
  simp only [Bind.bind, Except.bind]
  rw [hs1]
  rfl

/-- Helper: inversion of a successful `processAggregation`. -/
theorem processAggregation_ok_inv {classes : PyDict ClassInfo}
    {agg : Aggregation} {classes2 : PyDict ClassInfo}
    (h : ModelParser.processAggregation classes agg = .ok classes2) :
    ∃ src tgt mm src1,
      PyDict.get? classes agg.source = some src ∧
      PyDict.get? classes agg.target = some tgt ∧
      parseMultiplicity agg.sourceMultiplicity = .ok mm ∧
      PyDict.get? (PyDict.set classes agg.target
        { tgt with children := tgt.children ++ [agg.source] }) agg.source
        = some src1 ∧
      classes2 = PyDict.set (PyDict.set classes agg.target
        { tgt with children := tgt.children ++ [agg.source] }) agg.source
        { src1 with min := mm.1, max := mm.2 } := by
  unfold ModelParser.processAggregation ModelParser.classItem at h
  cases hs : PyDict.get? classes agg.source with
  | none => rw [hs] at h; simp [Bind.bind, Except.bind] at h
  | some src =>
    rw [hs] at h
    cases ht : PyDict.get? classes agg.target with
    | none => rw [ht] at h; simp [Bind.bind, Except.bind] at h
    | some tgt =>
      rw [ht] at h
      cases hparse : parseMultiplicity agg.sourceMultiplicity with
      | error e => rw [hparse] at h; simp [Bind.bind, Except.bind] at h
      | ok mm =>
        rw [hparse] at h
        simp only [Bind.bind, Except.bind] at h
        cases hs1 : PyDict.get? (PyDict.set classes agg.target
            { tgt with children := tgt.children ++ [agg.source] })
            agg.source with
        | none => rw [hs1] at h; simp at h
        | some src1 =>
          rw [hs1] at h
          simp [Pure.pure, Except.pure] at h
          exact ⟨src, tgt, mm, src1, rfl, rfl, rfl, hs1, h.symm⟩

theorem generate_isSome_of_ranked (classes : PyDict ClassInfo)
    (rank : String → Nat) (D : List String)
    (hD : rankedDomain classes rank D = true) :
    ∀ (fuel : Nat) (n : String) (c : ClassInfo), n ∈ D →
      PyDict.get? classes n = some c → rank n < fuel →
      (ConfigXMLGenerator.generate fuel classes c).isSome = true := by
  intro fuel
  induction fuel with
  | zero => intro n c _ _ h; exact absurd h (Nat.not_lt_zero _)
  | succ fuel ih =>
    intro n c hn hc hrank
    unfold ConfigXMLGenerator.generate
    have hd2 : c.children.all (fun ch =>
        decide (ch ∈ D) && decide (rank ch < rank n) &&
          (PyDict.get? classes ch).isSome) = true := by
      have := List.all_eq_true.mp (by exact hD) n hn
      rw [hc] at this
      exact this
    have hmm : (c.children.mapM (fun childName =>
        match PyDict.get? classes childName with
        | some child => ConfigXMLGenerator.generate fuel classes child
        | none => none)).isSome = true := by
      apply mapM_isSome_of_forall
      intro ch hch
      have h3 := List.all_eq_true.mp hd2 ch hch
      simp only [Bool.and_eq_true, decide_eq_true_eq] at h3
      obtain ⟨⟨hmemD, hlt⟩, hsome⟩ := h3
      cases hgc : PyDict.get? classes ch with
      | none => rw [hgc] at hsome; cases hsome
      | some cc =>
        have hgen : (ConfigXMLGenerator.generate fuel classes cc).isSome
            = true := ih ch cc hmemD hgc (by omega)
        exact hgen
    cases hmap : c.children.mapM (fun childName =>
        match PyDict.get? classes childName with
        | some child => ConfigXMLGenerator.generate fuel classes child
        | none => none) with
    | none => rw [hmap] at hmm; cases hmm
    | some ce => simp [hmap]

theorem generate_none_of_cyclic (classes : PyDict ClassInfo)
    (cyc : List String) (hcyc : cyclicDomain classes cyc = true) :
    ∀ (fuel : Nat) (n : String) (c : ClassInfo), n ∈ cyc →
      PyDict.get? classes n = some c →
      ConfigXMLGenerator.generate fuel classes c = none := by
  intro fuel
  induction fuel with
  | zero => intro n c _ _; rfl
  | succ fuel ih =>
    intro n c hn hc
    unfold ConfigXMLGenerator.generate
    have hd : c.children.any (fun ch => decide (ch ∈ cyc)) = true := by
      have := List.all_eq_true.mp (by exact hcyc) n hn
      rw [hc] at this
      exact this
    obtain ⟨ch, hch, hchc⟩ := List.any_eq_true.mp hd
    have hchmem : ch ∈ cyc := of_decide_eq_true hchc
    have hres := List.all_eq_true.mp (by exact hcyc) ch hchmem
    cases hgc : PyDict.get? classes ch with
    | none => rw [hgc] at hres; cases hres
    | some cc =>
      have hnone : (c.children.mapM (fun childName =>
          match PyDict.get? classes childName with
          | some child => ConfigXMLGenerator.generate fuel classes child
          | none => none)) = none := by
        apply mapM_eq_none_of_mem hch
        rw [hgc]
        exact ih ch cc hchmem hgc
      rw [hnone]

/-- C1: for every pair of flat string-keyed maps `base` and `patched`
(arbitrary value type with structural equality, so empty maps, maps with
nested JSON values and maps with disjoint key sets are all covered, only the
patched dictionary's keys must be distinct as in every Python dict),
applying the delta computed by the diff to `base` reconstructs `patched`:
the two sides agree on every key, which is Python's structural `==` on
dicts. -/
theorem delta_round_trip {V : Type} [DecidableEq V]
    (base patched : PyDict V) (hp : PyDict.NodupKeys patched) (k : String) :
    PyDict.get? (ResPatchedConfigGenerator.generate base
      (DeltaJSONGenerator.generate base patched)) k
      = PyDict.get? patched k := by
  rw [applyDelta_get?]
  cases hpk : PyDict.get? patched k with
  | some v =>
    cases hbk : PyDict.get? base k with
    | none =>
      have hmem : (⟨k, v⟩ : Addition V) ∈
          (DeltaJSONGenerator.generate base patched).additions :=
        mem_additions_iff.mpr ⟨(k, v), PyDict.get?_mem hpk,
          hasKey_false_iff.mpr hbk, rfl⟩
      have hfind := PyDict.find?_key_reverse_of_nodup
        (fun a : Addition V => a.key) (additions_keys_nodup hp) hmem rfl
      rw [hfind]
    | some w =>
      have hnoadd : (DeltaJSONGenerator.generate base
          patched).additions.reverse.find? (fun a => a.key == k) = none := by
        rw [List.find?_eq_none]
        intro a ha hak
        obtain ⟨q, hq, hkey, rfl⟩ :=
          mem_additions_iff.mp (List.mem_reverse.mp ha)
        have hqk : q.1 = k := by simpa using hak
        rw [hqk] at hkey
        rw [hasKey_false_iff.mp hkey] at hbk
        cases hbk
      rw [hnoadd]
      cases hupd : (DeltaJSONGenerator.generate
          base patched).updates.reverse.find? (fun u => u.key == k) with
      | some u =>
        have humem := List.mem_reverse.mp (List.mem_of_find?_eq_some hupd)
        have huk : u.key = k := by simpa using List.find?_some hupd
        have hto := updates_to_eq humem
        rw [huk, hpk] at hto
        simpa using hto.symm
      | none =>
        have hwv : w = v := by
          by_contra hne
          have humem : (⟨k, w, v⟩ : Update V) ∈
              (DeltaJSONGenerator.generate base patched).updates :=
            mem_updates_iff.mpr ⟨(k, w), PyDict.get?_mem hbk, v, hpk, hne, rfl⟩
          have := List.find?_eq_none.mp hupd ⟨k, w, v⟩
            (List.mem_reverse.mpr humem)
          simp at this
        have hnotdel : k ∉
            (DeltaJSONGenerator.generate base patched).deletions := by
          intro hdel
          obtain ⟨q, hq, hkey, hqk⟩ := mem_deletions_iff.mp hdel
          rw [hqk] at hkey
          rw [hasKey_false_iff.mp hkey] at hpk
          cases hpk
        simp only [if_neg hnotdel, hbk, hwv]
  | none =>
    have hnoadd : (DeltaJSONGenerator.generate
        base patched).additions.reverse.find? (fun a => a.key == k)
        = none := by
      rw [List.find?_eq_none]
      intro a ha hak
      obtain ⟨q, hq, hkey, rfl⟩ :=
        mem_additions_iff.mp (List.mem_reverse.mp ha)
      have hqk : q.1 = k := by simpa using hak
      exact (PyDict.get?_eq_none_iff_forall patched k).mp hpk q.2
        (by rw [← hqk]; simpa using hq)
    rw [hnoadd]
    have hnoupd : (DeltaJSONGenerator.generate
        base patched).updates.reverse.find? (fun u => u.key == k)
        = none := by
      rw [List.find?_eq_none]
      intro u hu huk
      have huk2 : u.key = k := by simpa using huk
      have hto := updates_to_eq (List.mem_reverse.mp hu)
      rw [huk2, hpk] at hto
      cases hto
    rw [hnoupd]
    cases hbk : PyDict.get? base k with
    | some w =>
      have hdel : k ∈ (DeltaJSONGenerator.generate base patched).deletions :=
        mem_deletions_iff.mpr ⟨(k, w), PyDict.get?_mem hbk,
          hasKey_false_iff.mpr hpk, rfl⟩
      simp only [if_pos hdel]
    | none =>
      have hnotdel : k ∉
          (DeltaJSONGenerator.generate base patched).deletions := by
        intro hdel
        obtain ⟨q, hq, hkey, hqk⟩ := mem_deletions_iff.mp hdel
        exact (PyDict.get?_eq_none_iff_forall base k).mp hbk q.2
          (by rw [← hqk]; simpa using hq)
      simp only [if_neg hnotdel, hbk]

theorem delta_round_trip_witness :
    PyDict.NodupKeys ([("b", [3]), ("c", [4])] : PyDict (List Nat)) ∧
    PyDict.get? (ResPatchedConfigGenerator.generate [("a", [1]), ("b", [2])]
      (DeltaJSONGenerator.generate [("a", [1]), ("b", [2])]
        [("b", [3]), ("c", [4])])) "b"
      = PyDict.get? [("b", [3]), ("c", [4])] "b" :=
  ⟨by decide, delta_round_trip [("a", [1]), ("b", [2])]
    [("b", [3]), ("c", [4])] (by decide) "b"⟩

/-- C2: for every pair of flat maps (with distinct keys, as in every Python
dict), the diff's `additions` are exactly the key-value pairs of `patched`
at keys absent from `base`; `deletions` are exactly the keys of `base`
absent from `patched`; `updates` are exactly the keys present in both with
structurally different values, as records of the key, the base value and the
patched value; and a key present in both with equal values lands in no
bucket. -/
theorem diff_buckets_exact {V : Type} [DecidableEq V]
    (base patched : PyDict V) (hb : PyDict.NodupKeys base)
    (hp : PyDict.NodupKeys patched) :
    (∀ k v, (⟨k, v⟩ : Addition V) ∈
        (DeltaJSONGenerator.generate base patched).additions ↔
      PyDict.get? patched k = some v ∧ PyDict.get? base k = none) ∧
    (∀ k, k ∈ (DeltaJSONGenerator.generate base patched).deletions ↔
      (∃ v, PyDict.get? base k = some v) ∧ PyDict.get? patched k = none) ∧
    (∀ k f t, (⟨k, f, t⟩ : Update V) ∈
        (DeltaJSONGenerator.generate base patched).updates ↔
      PyDict.get? base k = some f ∧ PyDict.get? patched k = some t ∧
        f ≠ t) ∧
    (∀ k v, PyDict.get? base k = some v → PyDict.get? patched k = some v →
      (∀ a ∈ (DeltaJSONGenerator.generate base patched).additions,
        a.key ≠ k) ∧
      k ∉ (DeltaJSONGenerator.generate base patched).deletions ∧
      (∀ u ∈ (DeltaJSONGenerator.generate base patched).updates,
        u.key ≠ k)) := by
  refine ⟨?_, ?_, ?_, ?_⟩
  · intro k v
    constructor
    · intro hmem
      obtain ⟨q, hq, hkey, heq⟩ := mem_additions_iff.mp hmem
      have hk : q.1 = k := congrArg Addition.key heq |>.symm
      have hv : q.2 = v := congrArg Addition.value heq |>.symm
      subst hk; subst hv
      exact ⟨PyDict.mem_get?_of_nodup hp (by simpa using hq),
        hasKey_false_iff.mp hkey⟩
    · rintro ⟨hpv, hbn⟩
      exact mem_additions_iff.mpr ⟨(k, v), PyDict.get?_mem hpv,
        hasKey_false_iff.mpr hbn, rfl⟩
  · intro k
    constructor
    · intro hmem
      obtain ⟨q, hq, hkey, hqk⟩ := mem_deletions_iff.mp hmem
      subst hqk
      exact ⟨⟨q.2, PyDict.mem_get?_of_nodup hb (by simpa using hq)⟩,
        hasKey_false_iff.mp hkey⟩
    · rintro ⟨⟨v, hbv⟩, hpn⟩
      exact mem_deletions_iff.mpr ⟨(k, v), PyDict.get?_mem hbv,
        hasKey_false_iff.mpr hpn, rfl⟩
  · intro k f t
    constructor
    · intro hmem
      obtain ⟨q, hq, v, hpv, hne, heq⟩ := mem_updates_iff.mp hmem
      have hk : q.1 = k := congrArg Update.key heq |>.symm
      have hf : q.2 = f := congrArg Update.from heq |>.symm
      have ht : v = t := congrArg Update.to heq |>.symm
      subst hk; subst hf; subst ht
      exact ⟨PyDict.mem_get?_of_nodup hb (by simpa using hq), hpv, hne⟩
    · rintro ⟨hbf, hpt, hne⟩
      exact mem_updates_iff.mpr ⟨(k, f), PyDict.get?_mem hbf, t, hpt, hne,
        rfl⟩
  · intro k v hbv hpv
    refine ⟨?_, ?_, ?_⟩
    · intro a ha hak
      obtain ⟨q, hq, hkey, rfl⟩ := mem_additions_iff.mp ha
      have hqk : q.1 = k := hak
      rw [hqk] at hkey
      rw [hasKey_false_iff.mp hkey] at hbv
      cases hbv
    · intro hdel
      obtain ⟨q, hq, hkey, hqk⟩ := mem_deletions_iff.mp hdel
      rw [hqk] at hkey
      rw [hasKey_false_iff.mp hkey] at hpv
      cases hpv
    · intro u hu huk
      obtain ⟨q, hq, w, hpw, hne, rfl⟩ := mem_updates_iff.mp hu
      have hqk : q.1 = k := huk
      rw [hqk] at hpw
      rw [hpv] at hpw
      have hw : w = v := by simpa using hpw.symm
      have hq2 : q.2 = v := by
        have := PyDict.mem_get?_of_nodup hb
          (show (k, q.2) ∈ base from by rw [← hqk]; simpa using hq)
        rw [hbv] at this
        simpa using this.symm
      rw [hw] at hne
      exact hne hq2

theorem diff_buckets_exact_witness :
    PyDict.NodupKeys ([("a", 1), ("b", 2)] : PyDict Nat) ∧
    PyDict.NodupKeys ([("b", 3), ("c", 4)] : PyDict Nat) ∧
    ((⟨"c", 4⟩ : Addition Nat) ∈
        (DeltaJSONGenerator.generate [("a", 1), ("b", 2)]
          [("b", 3), ("c", 4)]).additions ↔
      PyDict.get? [("b", 3), ("c", 4)] "c" = some 4 ∧
        PyDict.get? [("a", 1), ("b", 2)] "c" = none) :=
  ⟨by decide, by decide,
    (diff_buckets_exact [("a", 1), ("b", 2)] [("b", 3), ("c", 4)]
      (by decide) (by decide)).1 "c" 4⟩

/-- C3: for every flat map `base` and every delta, consistent or not, the
patch application behaves as deletions first (removing an absent key is a
no-op), then updates (the last update for a key wins and re-adds an absent
key), then additions (the last addition for a key wins and silently
overwrites), in exactly that order: pointwise, the latest addition for a key
beats the latest update, which beats a deletion, which beats the base
map. -/
theorem apply_delta_pointwise {V : Type} (base : PyDict V) (delta : Delta V)
    (k : String) :
    PyDict.get? (ResPatchedConfigGenerator.generate base delta) k =
      match delta.additions.reverse.find? (fun a => a.key == k) with
      | some a => some a.value
      | none =>
        match delta.updates.reverse.find? (fun u => u.key == k) with
        | some u => some u.«to»
        | none =>
          if k ∈ delta.deletions then none else PyDict.get? base k :=
  applyDelta_get? base delta k

/-- C4: processing one aggregation edge appends the source to the target's
children (hence children accumulate in edge-declaration order) and
overwrites the source's `min`/`max` with the parse of the edge's source
multiplicity, leaving all other classes untouched; after any successful edge
processing the source's `min`/`max` equal that edge's parsed multiplicity,
so with several edges sharing a source the last edge wins, with no
accumulation and no error; and on a self-loop edge, where source and target
are the same class and in Python the two variables alias one object, the
class gains itself as a child and the parsed `min`/`max` together, all other
classes untouched. -/
theorem aggregation_edge_effect :
    (∀ (classes : PyDict ClassInfo) (agg : Aggregation)
        (src tgt : ClassInfo) (mn mx : String),
      PyDict.get? classes agg.source = some src →
      PyDict.get? classes agg.target = some tgt →
      parseMultiplicity agg.sourceMultiplicity = .ok (mn, mx) →
      agg.source ≠ agg.target →
      ∃ classes2,
        ModelParser.processAggregation classes agg = .ok classes2 ∧
        PyDict.get? classes2 agg.target =
          some { tgt with children := tgt.children ++ [agg.source] } ∧
        PyDict.get? classes2 agg.source =
          some { src with min := mn, max := mx } ∧
        ∀ k, k ≠ agg.source → k ≠ agg.target →
          PyDict.get? classes2 k = PyDict.get? classes k) ∧
    (∀ (classes classes2 : PyDict ClassInfo) (agg : Aggregation)
        (mn mx : String),
      ModelParser.processAggregation classes agg = .ok classes2 →
      parseMultiplicity agg.sourceMultiplicity = .ok (mn, mx) →
      ∃ src2, PyDict.get? classes2 agg.source = some src2 ∧
        src2.min = mn ∧ src2.max = mx) ∧
    (∀ (classes : PyDict ClassInfo) (agg : Aggregation) (src : ClassInfo)
        (mn mx : String),
      agg.source = agg.target →
      PyDict.get? classes agg.source = some src →
      parseMultiplicity agg.sourceMultiplicity = .ok (mn, mx) →
      ∃ classes2,
        ModelParser.processAggregation classes agg = .ok classes2 ∧
        PyDict.get? classes2 agg.source =
          some { src with children := src.children ++ [agg.source], min := mn, max := mx } ∧
        ∀ k, k ≠ agg.source →
          PyDict.get? classes2 k = PyDict.get? classes k) := by
  refine ⟨?_, ?_, ?_⟩
  · intro classes agg src tgt mn mx hs ht hparse hne
    have hs1 : PyDict.get? (PyDict.set classes agg.target
        { tgt with children := tgt.children ++ [agg.source] }) agg.source
        = some src := by
      rw [PyDict.get?_set_ne _ _ hne]
      exact hs
    refine ⟨_, processAggregation_eq classes agg src tgt (mn, mx) src hs ht
      hparse hs1, ?_, ?_, ?_⟩
    · rw [PyDict.get?_set_ne _ _ (Ne.symm hne), PyDict.get?_set_self]
    · rw [PyDict.get?_set_self]
    · intro k hks hkt
      rw [PyDict.get?_set_ne _ _ hks, PyDict.get?_set_ne _ _ hkt]
  · intro classes classes2 agg mn mx h hparse
    obtain ⟨src, tgt, mm, src1, hs, ht, hp2, hs1, rfl⟩ :=
      processAggregation_ok_inv h
    rw [hparse] at hp2
    have hmm : mm = (mn, mx) := by
      cases hp2
      rfl
    subst hmm
    exact ⟨_, PyDict.get?_set_self _ _ _, rfl, rfl⟩
  · intro classes agg src mn mx heq hs hparse
    have ht : PyDict.get? classes agg.target = some src := by
      rw [← heq]
      exact hs
    have hs1 : PyDict.get? (PyDict.set classes agg.target
        { src with children := src.children ++ [agg.source] }) agg.source
        = some { src with children := src.children ++ [agg.source] } := by
      rw [heq]
      exact PyDict.get?_set_self _ _ _
    refine ⟨_, processAggregation_eq classes agg src src (mn, mx)
      { src with children := src.children ++ [agg.source] } hs ht hparse hs1,
      ?_, ?_⟩
    · rw [PyDict.get?_set_self]
    · intro k hk
      rw [PyDict.get?_set_ne _ _ hk, PyDict.get?_set_ne _ _ (heq ▸ hk)]

theorem aggregation_edge_effect_witness :
    (∃ classes2,
      ModelParser.processAggregation
        [("A", ⟨"A", true, "", [], [], "0", "0"⟩),
         ("B", ⟨"B", false, "", [], [], "0", "0"⟩)]
        ⟨"B", "A", "0..*", "1"⟩ = .ok classes2 ∧
      PyDict.get? classes2 "A" = some ⟨"A", true, "", [], ["B"], "0", "0"⟩ ∧
      PyDict.get? classes2 "B" = some ⟨"B", false, "", [], [], "0", "*"⟩ ∧
      ∀ k, k ≠ "B" → k ≠ "A" →
        PyDict.get? classes2 k = PyDict.get?
          [("A", ⟨"A", true, "", [], [], "0", "0"⟩),
           ("B", ⟨"B", false, "", [], [], "0", "0"⟩)] k) ∧
    (∃ classes2,
      ModelParser.processAggregation
        [("A", ⟨"A", true, "", [], [], "0", "0"⟩)]
        ⟨"A", "A", "1..2", "1"⟩ = .ok classes2 ∧
      PyDict.get? classes2 "A" = some ⟨"A", true, "", [], ["A"], "1", "2"⟩ ∧
      ∀ k, k ≠ "A" →
        PyDict.get? classes2 k = PyDict.get?
          [("A", ⟨"A", true, "", [], [], "0", "0"⟩)] k) :=
  ⟨aggregation_edge_effect.1
    [("A", ⟨"A", true, "", [], [], "0", "0"⟩),
     ("B", ⟨"B", false, "", [], [], "0", "0"⟩)]
    ⟨"B", "A", "0..*", "1"⟩
    ⟨"B", false, "", [], [], "0", "0"⟩ ⟨"A", true, "", [], [], "0", "0"⟩
    "0" "*" rfl rfl rfl (by decide),
   aggregation_edge_effect.2.2
    [("A", ⟨"A", true, "", [], [], "0", "0"⟩)]
    ⟨"A", "A", "1..2", "1"⟩ ⟨"A", true, "", [], [], "0", "0"⟩
    "1" "2" rfl rfl rfl⟩

/-- C5 (amended): the parser returns the two split parts when splitting on
`".."` yields exactly two, returns the whole string twice when the string
does not contain `".."` (the split then yields one part), performs no
numeric validation, and fails, with a `ValueError` and only ever with a
`ValueError`, exactly when the string contains `".."` (split length is not
one) and the split yields other than two parts; in particular
`parse("0..1") = ("0","1")`, `parse("1") = ("1","1")` and
`parse("1..*") = ("1","*")`. -/
theorem multiplicity_parse_contract :
    parseMultiplicity "0..1" = .ok ("0", "1") ∧
    parseMultiplicity "1" = .ok ("1", "1") ∧
    parseMultiplicity "1..*" = .ok ("1", "*") ∧
    (∀ s a b, splitOnDotDot s = [a, b] → parseMultiplicity s = .ok (a, b)) ∧
    (∀ s, (splitOnDotDot s).length = 1 → parseMultiplicity s = .ok (s, s)) ∧
    (∀ s, parseMultiplicity s = .error .valueError ↔
      (splitOnDotDot s).length ≠ 1 ∧ (splitOnDotDot s).length ≠ 2) ∧
    (∀ s e, parseMultiplicity s = .error e → e = .valueError) := by
  refine ⟨rfl, rfl, rfl, ?_, ?_, ?_, ?_⟩
  · intro s a b h
    unfold parseMultiplicity
    rw [h]
    simp
  · intro s h
    unfold parseMultiplicity
    rw [if_neg (by simp [h])]
  · intro s
    unfold parseMultiplicity
    rcases hsp : splitOnDotDot s with _ | ⟨a, _ | ⟨b, _ | ⟨c, rest⟩⟩⟩ <;>
      simp
  · intro s e h
    unfold parseMultiplicity at h
    by_cases h1 : (splitOnDotDot s).length ≠ 1
    · rw [if_pos h1] at h
      rcases hsp : splitOnDotDot s with _ | ⟨a, _ | ⟨b, _ | ⟨c, rest⟩⟩⟩ <;>
        rw [hsp] at h <;> simp at h <;> simp [h]
    · rw [if_neg h1] at h
      cases h

theorem multiplicity_parse_contract_witness :
    splitOnDotDot "3..7" = ["3", "7"] ∧
    parseMultiplicity "3..7" = .ok ("3", "7") :=
  ⟨by decide, multiplicity_parse_contract.2.2.2.1 "3..7" "3" "7" (by decide)⟩

/-- C5 counterexample: the claim's failure condition, read literally, is
false on the input `"1"`: splitting it on `".."` yields one part, which is
other than two parts, yet parsing succeeds with `("1", "1")` instead of
failing with a data error. -/
theorem multiplicity_parse_fail_counterexample :
    parseMultiplicity "1" = .ok ("1", "1") ∧
    (splitOnDotDot "1").length ≠ 2 :=
  ⟨rfl, by decide⟩

/-- C6: for every built model, cyclic containment included (children are
name references, so cyclic graphs are representable), the flat metadata
generator is total and emits exactly one record per class-dictionary entry,
in order, of shape `class`/`documentation`/`isRoot`/`min`/`max`/`parameters`
with `parameters` the attributes in declaration order followed by the
children in containment order; hence the number of parameters is the number
of attributes plus the number of children. -/
theorem meta_generate_record_shape (classes : PyDict ClassInfo) :
    (MetaJSONGenerator.generate classes).length = classes.length ∧
    (∀ (i : Nat) (p : String × ClassInfo), classes[i]? = some p →
      ∃ e : MetaEntry, (MetaJSONGenerator.generate classes)[i]? = some e ∧
        e = { className := p.2.name, documentation := p.2.documentation,
              isRoot := p.2.is_root, max := p.2.max, min := p.2.min,
              parameters :=
                p.2.attributes.map
                  (fun attr => { name := attr.name, type := attr.type })
                ++ p.2.children.map
                  (fun child => { name := child, type := "class" }) } ∧
        e.parameters.length =
          p.2.attributes.length + p.2.children.length) := by
  constructor
  · unfold MetaJSONGenerator.generate
    exact List.length_map _ _
  · intro i p hp
    refine ⟨_, ?_, rfl, ?_⟩
    · unfold MetaJSONGenerator.generate
      rw [List.getElem?_map, hp]
      rfl
    · simp

theorem meta_generate_record_shape_witness :
    ∃ e : MetaEntry,
      (MetaJSONGenerator.generate
        [("A", ⟨"A", true, "doc", [⟨"addr", "string"⟩], ["B", "A"],
          "0", "0"⟩)])[0]? = some e ∧
      e = ⟨"A", "doc", true, "0", "0",
        [⟨"addr", "string"⟩, ⟨"B", "class"⟩, ⟨"A", "class"⟩]⟩ ∧
      e.parameters.length = 3 :=
  (meta_generate_record_shape
    [("A", ⟨"A", true, "doc", [⟨"addr", "string"⟩], ["B", "A"],
      "0", "0"⟩)]).2 0
    ("A", ⟨"A", true, "doc", [⟨"addr", "string"⟩], ["B", "A"], "0", "0"⟩) rfl

/-- C7: the root resolver returns the first class flagged `isRoot` in the
class-dictionary iteration order, errs with an unhandled `StopIteration`
exactly when no class is flagged, and in particular neither detects nor
rejects the presence of further roots later in the order. -/
theorem get_root_class_first :
    (∀ classes : PyDict ClassInfo, (∀ p ∈ classes, p.2.is_root = false) →
      ModelParser.get_root_class classes = .error .stopIteration) ∧
    (∀ (front : PyDict ClassInfo) (p : String × ClassInfo)
        (rest : PyDict ClassInfo),
      (∀ q ∈ front, q.2.is_root = false) → p.2.is_root = true →
      ModelParser.get_root_class (front ++ p :: rest) = .ok p.2) := by
  constructor
  · intro classes hall
    unfold ModelParser.get_root_class
    have h : classes.find? (fun p => p.2.is_root) = none :=
      List.find?_eq_none.mpr (fun q hq => by simp [hall q hq])
    rw [h]
  · intro front p rest hfront hp
    unfold ModelParser.get_root_class
    rw [List.find?_append]
    have h1 : front.find? (fun p => p.2.is_root) = none :=
      List.find?_eq_none.mpr (fun q hq => by simp [hfront q hq])
    rw [h1, Option.none_or, List.find?_cons, hp]

theorem get_root_class_first_witness :
    ModelParser.get_root_class
      [("X", ⟨"X", false, "", [], [], "0", "0"⟩),
       ("R", ⟨"R", true, "", [], [], "0", "0"⟩),
       ("S", ⟨"S", true, "", [], [], "0", "0"⟩)]
      = .ok ⟨"R", true, "", [], [], "0", "0"⟩ :=
  get_root_class_first.2 [("X", ⟨"X", false, "", [], [], "0", "0"⟩)]
    ("R", ⟨"R", true, "", [], [], "0", "0"⟩)
    [("S", ⟨"S", true, "", [], [], "0", "0"⟩)] (by decide) rfl

/-- C8: an aggregation edge whose source or target name is not a key of the
class dictionary makes the edge processing, and hence model building, fail
with the generic dictionary-lookup error (`KeyError` carrying the unknown
name, the source being checked first), rather than skip the edge; the error
is not a dedicated kind. -/
theorem aggregation_unknown_name_error :
    (∀ (classes : PyDict ClassInfo) (agg : Aggregation),
      PyDict.get? classes agg.source = none →
      ModelParser.processAggregation classes agg =
        .error (.keyError agg.source)) ∧
    (∀ (classes : PyDict ClassInfo) (agg : Aggregation) (src : ClassInfo),
      PyDict.get? classes agg.source = some src →
      PyDict.get? classes agg.target = none →
      ModelParser.processAggregation classes agg =
        .error (.keyError agg.target)) ∧
    (∀ (decls : List ClassDecl) (pre post : List Aggregation)
        (bad : Aggregation) (m : PyDict ClassInfo),
      List.foldlM ModelParser.processAggregation
        (ModelParser.registerClasses decls) pre = .ok m →
      (PyDict.get? m bad.source = none ∨
        ((∃ src, PyDict.get? m bad.source = some src) ∧
          PyDict.get? m bad.target = none)) →
      ModelParser.buildModel decls (pre ++ bad :: post) =
        .error (.keyError (if PyDict.get? m bad.source = none
          then bad.source else bad.target))) := by
  have part1 : ∀ (classes : PyDict ClassInfo) (agg : Aggregation),
      PyDict.get? classes agg.source = none →
      ModelParser.processAggregation classes agg =
        .error (.keyError agg.source) := by
    intro classes agg h
    unfold ModelParser.processAggregation ModelParser.classItem
    rw [h]
    rfl
  have part2 : ∀ (classes : PyDict ClassInfo) (agg : Aggregation)
      (src : ClassInfo),
      PyDict.get? classes agg.source = some src →
      PyDict.get? classes agg.target = none →
      ModelParser.processAggregation classes agg =
        .error (.keyError agg.target) := by
    intro classes agg src hs ht
    unfold ModelParser.processAggregation ModelParser.classItem
    rw [hs, ht]
    rfl
  refine ⟨part1, part2, ?_⟩
  intro decls pre post bad m hpre hbad
  unfold ModelParser.buildModel
  rw [List.foldlM_append]
  rw [hpre]
  have hcons : List.foldlM ModelParser.processAggregation m (bad :: post) =
      Except.error (.keyError (if PyDict.get? m bad.source = none
        then bad.source else bad.target)) := by
    rw [List.foldlM_cons]
    rcases hbad with hsrc | ⟨⟨src, hsrc⟩, htgt⟩
    · rw [part1 m bad hsrc, if_pos hsrc]
      rfl
    · rw [part2 m bad src hsrc htgt, if_neg (by rw [hsrc]; simp)]
      rfl
  exact hcons

theorem aggregation_unknown_name_error_witness :
    ModelParser.buildModel [⟨"A", true, "", []⟩] [⟨"B", "A", "1", "1"⟩]
      = .error (.keyError "B") :=
  aggregation_unknown_name_error.2.2 [⟨"A", true, "", []⟩] [] []
    ⟨"B", "A", "1", "1"⟩ [("A", ⟨"A", true, "", [], [], "0", "0"⟩)]
    rfl (Or.inl rfl)

/-- C9: the recursive hierarchical generator terminates on every class whose
containment graph, restricted to a name set it stays inside, is acyclic (the
rank hypothesis is the standard finite-graph acyclicity witness): a fuel of
one more than the root's rank suffices.  Conversely a class on a children
cycle exhausts any amount of fuel, the fuel-indexed image of the Python
original's unbounded recursion. -/
theorem config_xml_generate_termination :
    (∀ (classes : PyDict ClassInfo) (rank : String → Nat) (D : List String)
        (n : String) (c : ClassInfo),
      rankedDomain classes rank D = true → n ∈ D →
      PyDict.get? classes n = some c →
      ∃ t, ConfigXMLGenerator.generate (rank n + 1) classes c = some t) ∧
    (∀ (classes : PyDict ClassInfo) (cyc : List String) (n : String)
        (c : ClassInfo) (fuel : Nat),
      cyclicDomain classes cyc = true → n ∈ cyc →
      PyDict.get? classes n = some c →
      ConfigXMLGenerator.generate fuel classes c = none) := by
  constructor
  · intro classes rank D n c hD hn hc
    have := generate_isSome_of_ranked classes rank D hD (rank n + 1) n c hn
      hc (Nat.lt_succ_self _)
    exact Option.isSome_iff_exists.mp this
  · intro classes cyc n c fuel hcyc hn hc
    exact generate_none_of_cyclic classes cyc hcyc fuel n c hn hc

theorem config_xml_generate_termination_witness :
    (∃ t, ConfigXMLGenerator.generate 2
      [("A", ⟨"A", true, "", [], ["B"], "0", "0"⟩),
       ("B", ⟨"B", false, "", [], [], "0", "0"⟩)]
      ⟨"A", true, "", [], ["B"], "0", "0"⟩ = some t) ∧
    ConfigXMLGenerator.generate 3
      [("C", ⟨"C", false, "", [], ["C"], "0", "0"⟩)]
      ⟨"C", false, "", [], ["C"], "0", "0"⟩ = none :=
  ⟨config_xml_generate_termination.1
    [("A", ⟨"A", true, "", [], ["B"], "0", "0"⟩),
     ("B", ⟨"B", false, "", [], [], "0", "0"⟩)]
    (fun n => if n = "B" then 0 else 1) ["A", "B"] "A"
    ⟨"A", true, "", [], ["B"], "0", "0"⟩ (by decide) (by decide) rfl,
   config_xml_generate_termination.2
    [("C", ⟨"C", false, "", [], ["C"], "0", "0"⟩)] ["C"] "C"
    ⟨"C", false, "", [], ["C"], "0", "0"⟩ 3 (by decide) (by decide) rfl⟩

/-- C10: applying the empty delta is the identity on every flat map; the
diff of a map (with distinct keys, as in every Python dict) against itself
is the empty delta; consequently diff-then-apply on identical maps gives
back the original key-to-value view. -/
theorem empty_delta_identity {V : Type} [DecidableEq V] (m : PyDict V)
    (hm : PyDict.NodupKeys m) :
    (∀ base : PyDict V,
      ResPatchedConfigGenerator.generate base ⟨[], [], []⟩ = base) ∧
    DeltaJSONGenerator.generate m m = ⟨[], [], []⟩ ∧
    PyDict.get? (ResPatchedConfigGenerator.generate m
      (DeltaJSONGenerator.generate m m)) = PyDict.get? m := by
  have h1 : m.filter (fun p => !(PyDict.hasKey m p.1)) = [] := by
    rw [List.filter_eq_nil_iff]
    intro p hp
    simp [hasKey_of_mem hp]
  have h3 : m.filterMap (fun p =>
      match PyDict.get? m p.1 with
      | some v =>
        if p.2 = v then none
        else some { key := p.1, «from» := p.2, «to» := v }
      | none => none) = ([] : List (Update V)) := by
    rw [List.filterMap_eq_nil_iff]
    intro p hp
    have := PyDict.mem_get?_of_nodup hm (show (p.1, p.2) ∈ m by simpa using hp)
    rw [this]
    simp
  have hdiff : DeltaJSONGenerator.generate m m = ⟨[], [], []⟩ := by
    unfold DeltaJSONGenerator.generate
    rw [h1, h3]
    simp
  exact ⟨fun base => rfl, hdiff, by rw [hdiff]; rfl⟩

theorem empty_delta_identity_witness :
    PyDict.NodupKeys ([("a", 1), ("b", 2)] : PyDict Nat) ∧
    ((∀ base : PyDict Nat,
      ResPatchedConfigGenerator.generate base ⟨[], [], []⟩ = base) ∧
    DeltaJSONGenerator.generate [("a", 1), ("b", 2)] [("a", 1), ("b", 2)]
      = ⟨[], [], []⟩ ∧
    PyDict.get? (ResPatchedConfigGenerator.generate [("a", 1), ("b", 2)]
      (DeltaJSONGenerator.generate [("a", 1), ("b", 2)]
        [("a", 1), ("b", 2)])) = PyDict.get? [("a", 1), ("b", 2)]) :=
  ⟨by decide, empty_delta_identity [("a", 1), ("b", 2)] (by decide)⟩

end SimpleConfigTool
